import Mathlib

/-!
Verification of the EEG biomarker-extraction pipeline.

Shallow embedding of `src/lib/advancedEEGAnalysis.ts` and `src/lib/eegParser.ts`.
JavaScript numbers (IEEE doubles) are modelled as real numbers; where the source
can produce a non-finite value (NaN or an infinity) from finite operands, the
embedding makes that explicit with `Option ℝ` (`none` = non-finite).  Frequencies
and sampling rates are rationals so that the `Map<number, number>` keys of the
PSD accumulator have decidable equality, exactly as the source compares float
keys that are exact multiples of `samplingRate / windowSize`.
-/

open Real

noncomputable section

/-- One EEG channel (eegParser.ts, `EEGChannel`): a name, its ordered samples and
its sampling rate. -/
structure EEGChannel where
  name : String
  data : List ℝ
  samplingRate : ℚ

/-- A parsed recording (eegParser.ts, `ParsedEEGData`); the optional `patientInfo`
is omitted, no analysed claim reads it. -/
structure ParsedEEGData where
  channels : List EEGChannel
  duration : ℝ
  samplingRate : ℚ

/-- One frequency band of a spectral analysis (advancedEEGAnalysis.ts,
`SpectralAnalysis.bands` entry): absolute power, and the relative power
`(power / total) * 100`, which the source can turn into NaN (hence `Option ℝ`). -/
structure BandInfo where
  power : ℝ
  relative : Option ℝ

/-- advancedEEGAnalysis.ts, `SpectralAnalysis` (the five bands are flattened into
one field each). -/
structure SpectralAnalysis where
  channel : String
  delta : BandInfo
  theta : BandInfo
  alpha : BandInfo
  beta : BandInfo
  gamma : BandInfo
  deltaTheta : ℝ
  alphaAbsolute : ℝ
  complexity : ℝ
  spikeFrequency : ℝ

/-- advancedEEGAnalysis.ts, `ConnectivityMetrics`. -/
structure ConnectivityMetrics where
  localCoherence : ℝ
  remoteCoherence : ℝ
  synchronization : ℝ
  frontalPower : ℝ
  temporalPower : ℝ

/-- advancedEEGAnalysis.ts, `SchizophreniaRiskFactors & \x7b score: number \x7d`. -/
structure SchizophreniaRisk where
  deltaTheta : ℝ
  reducedAlpha : ℝ
  complexity : ℝ
  connectivity : ℝ
  anomalies : ℝ
  score : ℝ

/-- advancedEEGAnalysis.ts, `calculateSchizophreniaRisk` (lines 323-361): the five
clamped sub-scores and the composite score `min 100 (sum)`.  The decimal
constants of the source (1.2, 0.5, 1.5, 0.4) are written as rationals. -/
def calculateSchizophreniaRisk (sa : List SpectralAnalysis)
    (cm : ConnectivityMetrics) : SchizophreniaRisk :=
  let avgDeltaTheta := (sa.map SpectralAnalysis.deltaTheta).sum / sa.length
  let avgAlpha := (sa.map SpectralAnalysis.alphaAbsolute).sum / sa.length
  let avgComplexity := (sa.map SpectralAnalysis.complexity).sum / sa.length
  let avgSpikes := (sa.map SpectralAnalysis.spikeFrequency).sum / sa.length
  let deltaTheta := min 25 (max 0 ((avgDeltaTheta - 12/10) / (5/10) * 25))
  let reducedAlpha := min 20 (max 0 ((4 - avgAlpha) / 2 * 20))
  let complexity :=
    min 15 (max 0 (if 3/2 < avgComplexity then 15 else avgComplexity / (3/2) * 15))
  let connectivityScore := min 15 (max 0 ((4/10 - cm.synchronization) / (4/10) * 15))
  let anomalies := min 25 (max 0 (avgSpikes / (5/10) * 25))
  let score := deltaTheta + reducedAlpha + complexity + connectivityScore + anomalies
  ⟨deltaTheta, reducedAlpha, complexity, connectivityScore, anomalies, min 100 score⟩

end

section RiskProofs

/-- A clamp `min c (max 0 x)` lies in `[0, c]`. -/
theorem clamp_mem {c x : ℝ} (hc : 0 ≤ c) :
    0 ≤ min c (max 0 x) ∧ min c (max 0 x) ≤ c :=
  ⟨le_min hc (le_max_left 0 x), min_le_left c _⟩

/-- C1: for every non-empty list of spectral analyses and every connectivity
input, the composite risk score equals `clamp(sum of the five sub-scores, 0, 100)`,
each sub-score lies in its stated cap (`deltaTheta ∈ [0,25]`,
`reducedAlpha ∈ [0,20]`, `complexity ∈ [0,15]`, `connectivity ∈ [0,15]`,
`anomalies ∈ [0,25]`), and the composite score lies in `[0,100]`. -/
theorem calculateSchizophreniaRisk_clamped (sa : List SpectralAnalysis)
    (cm : ConnectivityMetrics) (h : sa ≠ []) :
    (calculateSchizophreniaRisk sa cm).score =
      min 100 (max 0 ((calculateSchizophreniaRisk sa cm).deltaTheta +
        (calculateSchizophreniaRisk sa cm).reducedAlpha +
        (calculateSchizophreniaRisk sa cm).complexity +
        (calculateSchizophreniaRisk sa cm).connectivity +
        (calculateSchizophreniaRisk sa cm).anomalies)) ∧
    (0 ≤ (calculateSchizophreniaRisk sa cm).deltaTheta ∧
      (calculateSchizophreniaRisk sa cm).deltaTheta ≤ 25) ∧
    (0 ≤ (calculateSchizophreniaRisk sa cm).reducedAlpha ∧
      (calculateSchizophreniaRisk sa cm).reducedAlpha ≤ 20) ∧
    (0 ≤ (calculateSchizophreniaRisk sa cm).complexity ∧
      (calculateSchizophreniaRisk sa cm).complexity ≤ 15) ∧
    (0 ≤ (calculateSchizophreniaRisk sa cm).connectivity ∧
      (calculateSchizophreniaRisk sa cm).connectivity ≤ 15) ∧
    (0 ≤ (calculateSchizophreniaRisk sa cm).anomalies ∧
      (calculateSchizophreniaRisk sa cm).anomalies ≤ 25) ∧
    0 ≤ (calculateSchizophreniaRisk sa cm).score ∧
    (calculateSchizophreniaRisk sa cm).score ≤ 100 := by
  simp only [calculateSchizophreniaRisk]
  have h25 : (0:ℝ) ≤ 25 := by norm_num
  have h20 : (0:ℝ) ≤ 20 := by norm_num
  have h15 : (0:ℝ) ≤ 15 := by norm_num
  set a := min 25 (max 0 (((sa.map SpectralAnalysis.deltaTheta).sum / sa.length - 12/10)
    / (5/10) * 25)) with ha
  set b := min 20 (max 0 ((4 - (sa.map SpectralAnalysis.alphaAbsolute).sum / sa.length)
    / 2 * 20)) with hb
  set c := min 15 (max 0 (if 3/2 < (sa.map SpectralAnalysis.complexity).sum / sa.length
    then 15 else (sa.map SpectralAnalysis.complexity).sum / sa.length / (3/2) * 15)) with hc
  set d := min 15 (max 0 ((4/10 - cm.synchronization) / (4/10) * 15)) with hd
  set e := min 25 (max 0 ((sa.map SpectralAnalysis.spikeFrequency).sum / sa.length
    / (5/10) * 25)) with he
  have hA := clamp_mem (x := (((sa.map SpectralAnalysis.deltaTheta).sum / sa.length - 12/10)
    / (5/10) * 25)) h25
  have hB := clamp_mem (x := ((4 - (sa.map SpectralAnalysis.alphaAbsolute).sum / sa.length)
    / 2 * 20)) h20
  have hC := clamp_mem (x := (if 3/2 < (sa.map SpectralAnalysis.complexity).sum / sa.length
    then (15:ℝ) else (sa.map SpectralAnalysis.complexity).sum / sa.length / (3/2) * 15)) h15
  have hD := clamp_mem (x := ((4/10 - cm.synchronization) / (4/10) * 15)) h15
  have hE := clamp_mem (x := ((sa.map SpectralAnalysis.spikeFrequency).sum / sa.length
    / (5/10) * 25)) h25
  rw [← ha] at hA
  rw [← hb] at hB
  rw [← hc] at hC
  rw [← hd] at hD
  rw [← he] at hE
  have hsum : (0:ℝ) ≤ a + b + c + d + e := by
    have := hA.1
    have := hB.1
    have := hC.1
    have := hD.1
    have := hE.1
    linarith
  refine ⟨?_, hA, hB, hC, hD, hE, ?_, ?_⟩
  · rw [max_eq_right hsum]
  · exact le_min (by norm_num) hsum
  · exact min_le_left _ _

/-- Witness for C1: the theorem applied to a concrete one-element list of
analyses (an all-zero profile) and the all-zero connectivity record. -/
theorem calculateSchizophreniaRisk_clamped_witness :
    (calculateSchizophreniaRisk
        [⟨"A", ⟨0, none⟩, ⟨0, none⟩, ⟨0, none⟩, ⟨0, none⟩, ⟨0, none⟩, 0, 0, 0, 0⟩]
        ⟨0, 0, 0, 0, 0⟩).score =
      min 100 (max 0 ((calculateSchizophreniaRisk
        [⟨"A", ⟨0, none⟩, ⟨0, none⟩, ⟨0, none⟩, ⟨0, none⟩, ⟨0, none⟩, 0, 0, 0, 0⟩]
        ⟨0, 0, 0, 0, 0⟩).deltaTheta +
        (calculateSchizophreniaRisk
        [⟨"A", ⟨0, none⟩, ⟨0, none⟩, ⟨0, none⟩, ⟨0, none⟩, ⟨0, none⟩, 0, 0, 0, 0⟩]
        ⟨0, 0, 0, 0, 0⟩).reducedAlpha +
        (calculateSchizophreniaRisk
        [⟨"A", ⟨0, none⟩, ⟨0, none⟩, ⟨0, none⟩, ⟨0, none⟩, ⟨0, none⟩, 0, 0, 0, 0⟩]
        ⟨0, 0, 0, 0, 0⟩).complexity +
        (calculateSchizophreniaRisk
        [⟨"A", ⟨0, none⟩, ⟨0, none⟩, ⟨0, none⟩, ⟨0, none⟩, ⟨0, none⟩, 0, 0, 0, 0⟩]
        ⟨0, 0, 0, 0, 0⟩).connectivity +
        (calculateSchizophreniaRisk
        [⟨"A", ⟨0, none⟩, ⟨0, none⟩, ⟨0, none⟩, ⟨0, none⟩, ⟨0, none⟩, 0, 0, 0, 0⟩]
        ⟨0, 0, 0, 0, 0⟩).anomalies)) ∧
    (0 ≤ (calculateSchizophreniaRisk
        [⟨"A", ⟨0, none⟩, ⟨0, none⟩, ⟨0, none⟩, ⟨0, none⟩, ⟨0, none⟩, 0, 0, 0, 0⟩]
        ⟨0, 0, 0, 0, 0⟩).deltaTheta ∧
      (calculateSchizophreniaRisk
        [⟨"A", ⟨0, none⟩, ⟨0, none⟩, ⟨0, none⟩, ⟨0, none⟩, ⟨0, none⟩, 0, 0, 0, 0⟩]
        ⟨0, 0, 0, 0, 0⟩).deltaTheta ≤ 25) ∧
    (0 ≤ (calculateSchizophreniaRisk
        [⟨"A", ⟨0, none⟩, ⟨0, none⟩, ⟨0, none⟩, ⟨0, none⟩, ⟨0, none⟩, 0, 0, 0, 0⟩]
        ⟨0, 0, 0, 0, 0⟩).reducedAlpha ∧
      (calculateSchizophreniaRisk
        [⟨"A", ⟨0, none⟩, ⟨0, none⟩, ⟨0, none⟩, ⟨0, none⟩, ⟨0, none⟩, 0, 0, 0, 0⟩]
        ⟨0, 0, 0, 0, 0⟩).reducedAlpha ≤ 20) ∧
    (0 ≤ (calculateSchizophreniaRisk
        [⟨"A", ⟨0, none⟩, ⟨0, none⟩, ⟨0, none⟩, ⟨0, none⟩, ⟨0, none⟩, 0, 0, 0, 0⟩]
        ⟨0, 0, 0, 0, 0⟩).complexity ∧
      (calculateSchizophreniaRisk
        [⟨"A", ⟨0, none⟩, ⟨0, none⟩, ⟨0, none⟩, ⟨0, none⟩, ⟨0, none⟩, 0, 0, 0, 0⟩]
        ⟨0, 0, 0, 0, 0⟩).complexity ≤ 15) ∧
    (0 ≤ (calculateSchizophreniaRisk
        [⟨"A", ⟨0, none⟩, ⟨0, none⟩, ⟨0, none⟩, ⟨0, none⟩, ⟨0, none⟩, 0, 0, 0, 0⟩]
        ⟨0, 0, 0, 0, 0⟩).connectivity ∧
      (calculateSchizophreniaRisk
        [⟨"A", ⟨0, none⟩, ⟨0, none⟩, ⟨0, none⟩, ⟨0, none⟩, ⟨0, none⟩, 0, 0, 0, 0⟩]
        ⟨0, 0, 0, 0, 0⟩).connectivity ≤ 15) ∧
    (0 ≤ (calculateSchizophreniaRisk
        [⟨"A", ⟨0, none⟩, ⟨0, none⟩, ⟨0, none⟩, ⟨0, none⟩, ⟨0, none⟩, 0, 0, 0, 0⟩]
        ⟨0, 0, 0, 0, 0⟩).anomalies ∧
      (calculateSchizophreniaRisk
        [⟨"A", ⟨0, none⟩, ⟨0, none⟩, ⟨0, none⟩, ⟨0, none⟩, ⟨0, none⟩, 0, 0, 0, 0⟩]
        ⟨0, 0, 0, 0, 0⟩).anomalies ≤ 25) ∧
    0 ≤ (calculateSchizophreniaRisk
        [⟨"A", ⟨0, none⟩, ⟨0, none⟩, ⟨0, none⟩, ⟨0, none⟩, ⟨0, none⟩, 0, 0, 0, 0⟩]
        ⟨0, 0, 0, 0, 0⟩).score ∧
    (calculateSchizophreniaRisk
        [⟨"A", ⟨0, none⟩, ⟨0, none⟩, ⟨0, none⟩, ⟨0, none⟩, ⟨0, none⟩, 0, 0, 0, 0⟩]
        ⟨0, 0, 0, 0, 0⟩).score ≤ 100 :=
  calculateSchizophreniaRisk_clamped
    [⟨"A", ⟨0, none⟩, ⟨0, none⟩, ⟨0, none⟩, ⟨0, none⟩, ⟨0, none⟩, 0, 0, 0, 0⟩]
    ⟨0, 0, 0, 0, 0⟩ (List.cons_ne_nil _ _)

end RiskProofs

noncomputable section

/-- One data row of the row loop of eegParser.ts `parseCSV` (lines 49-61).
A row is the list of its comma-separated cells after `parseFloat`: a numeric
cell is `some v`, a non-numeric cell (parseFloat = NaN) is `none`, and reading
past the end of the row (`values[j + dataStart]` = undefined, NaN after
`isNaN`) is `List.getD _ none`.  A row with fewer cells than the declared
channel count is skipped (`continue`); otherwise channel `j` is extended by the
value of cell `j + dataStart` exactly when that cell is numeric. -/
def csvProcessRow (channelCount dataStart : ℕ) (acc : List (List ℝ))
    (row : List (Option ℝ)) : List (List ℝ) :=
  if row.length < channelCount then acc
  else
    (List.range channelCount).map (fun j =>
      match row.getD (j + dataStart) none with
      | some v => acc.getD j [] ++ [v]
      | none => acc.getD j [])

/-- eegParser.ts `parseCSV`, lines 46-61: the per-channel sample lists built by
folding every data row into the initially empty channel arrays. -/
def parseCSVChannelData (channelCount dataStart : ℕ)
    (rows : List (List (Option ℝ))) : List (List ℝ) :=
  rows.foldl (csvProcessRow channelCount dataStart) (List.replicate channelCount [])

/-- IEEE division of two finite doubles, as a finite-or-not value: a zero divisor
yields a non-finite result (NaN for `0/0`, an infinity otherwise), modelled as
`none`; any other division of finite operands is the exact real quotient. -/
def jsDiv (a b : ℝ) : Option ℝ := if b = 0 then none else some (a / b)

/-- The per-channel record of eegParser.ts `extractEEGFeatures` (lines 160-192).
`Option ℝ` marks the values the source leaves non-finite on an empty channel:
`mean = reduce(..)/0` is NaN, `variance` and `stdDev` follow, and
`peakToPeak = Math.max(...[]) - Math.min(...[])` is `-∞`. -/
structure EEGFeatures where
  mean : Option ℝ
  variance : Option ℝ
  stdDev : Option ℝ
  peakToPeak : Option ℝ
  zeroCrossings : ℕ

/-- The zero-crossing count of `extractEEGFeatures`: sign transitions between a
sample (`p.1`, index `i ≥ 1`) and its predecessor (`p.2`). -/
def zeroCrossings (data : List ℝ) : ℕ :=
  ((data.tail.zip data).filter (fun p =>
    decide ((0 ≤ p.1 ∧ p.2 < 0) ∨ (p.1 < 0 ∧ 0 ≤ p.2)))).length

/-- eegParser.ts `extractEEGFeatures`, statistics of one channel. -/
def channelFeatures (data : List ℝ) : EEGFeatures :=
  let variance :=
    jsDiv ((data.map (fun b => (b - data.sum / data.length) ^ 2)).sum) data.length
  { mean := jsDiv data.sum data.length
    variance := variance
    stdDev := variance.map Real.sqrt
    peakToPeak :=
      match data.max?, data.min? with
      | some mx, some mn => some (mx - mn)
      | _, _ => none
    zeroCrossings := zeroCrossings data }

/-- eegParser.ts `extractEEGFeatures`: one feature record per channel, keyed by
the channel name (the flat string-keyed `Record` of the source is modelled as a
list of name/record pairs). -/
def extractEEGFeatures (pd : ParsedEEGData) : List (String × EEGFeatures) :=
  pd.channels.map (fun c => (c.name, channelFeatures c.data))

end

section ParserProofs

/-- Reading index `j < n` out of `(List.range n).map f` gives `f j`. -/
theorem getD_map_range {α : Type} (f : ℕ → α) (n j : ℕ) (hj : j < n) (d : α) :
    ((List.range n).map f).getD j d = f j := by
  simp [List.getD_eq_getElem?_getD, List.getElem?_range hj]

/-- The fold of the `parseCSV` row loop, channel by channel: starting from any
accumulator, channel `j` ends with its starting content followed by the numeric
values of cell `j + dataStart` of every row that has at least `channelCount`
cells. -/
theorem parseCSV_foldl (cc ds j : ℕ) (hj : j < cc) (rows : List (List (Option ℝ))) :
    ∀ acc : List (List ℝ),
      ((rows.foldl (csvProcessRow cc ds) acc).getD j []) =
        acc.getD j [] ++
          ((rows.filter (fun r => decide (cc ≤ r.length))).filterMap
            (fun r => r.getD (j + ds) none)) := by
  induction rows with
  | nil => intro acc; simp
  | cons r rows ih =>
    intro acc
    rw [List.foldl_cons, ih, List.filter_cons]
    by_cases hr : r.length < cc
    · have hcc : ¬ cc ≤ r.length := by omega
      simp only [csvProcessRow, if_pos hr]
      simp [hcc]
    · have hcc : cc ≤ r.length := by omega
      have hfilter : (decide (cc ≤ r.length)) = true := by simp [hcc]
      rw [hfilter, if_pos rfl, List.filterMap_cons]
      simp only [csvProcessRow, if_neg hr]
      rw [getD_map_range _ cc j hj]
      cases hv : r.getD (j + ds) none with
      | none => simp [hv]
      | some v => simp [hv, List.append_assoc]

/-- C9: in the `parseCSV` data-row loop, every row with fewer cells than the
declared channel count is skipped (contributing no sample to any channel)
without aborting the parse, and in a retained row every non-numeric cell
contributes no sample (absent, not zero): channel `j` receives exactly the
numeric values of cell `j + dataStart` of the sufficiently long rows, in
order. -/
theorem parseCSV_row_handling (cc ds j : ℕ) (rows : List (List (Option ℝ)))
    (hj : j < cc) :
    (parseCSVChannelData cc ds rows).getD j [] =
      (rows.filter (fun r => decide (cc ≤ r.length))).filterMap
        (fun r => r.getD (j + ds) none) := by
  rw [parseCSVChannelData, parseCSV_foldl cc ds j hj]
  simp [List.getD_eq_getElem?_getD, List.getElem?_replicate, hj]

/-- Witness for C9 at a concrete input: two declared channels, a first row with
both cells numeric, a second row that is too short (skipped whole), and a third
row whose first cell is non-numeric (absent from channel 0). -/
theorem parseCSV_row_handling_witness :
    (parseCSVChannelData 2 0 [[some 1, some 2], [some 3], [none, some 4]]).getD 0 [] =
      (([[some 1, some 2], [some 3], [none, some (4:ℝ)]] :
          List (List (Option ℝ))).filter (fun r => decide (2 ≤ r.length))).filterMap
        (fun r => r.getD (0 + 0) none) :=
  parseCSV_row_handling 2 0 0 [[some 1, some 2], [some 3], [none, some 4]]
    (by decide)

/-- C7's counterexample: on an empty channel the feature extractor is not
guarded — the mean (and variance, standard deviation, peak-to-peak) is the
non-finite result of dividing by zero, not the number 0. -/
theorem channelFeatures_empty_not_zero :
    (channelFeatures []).mean = none ∧ (channelFeatures []).variance = none ∧
      (channelFeatures []).stdDev = none ∧ (channelFeatures []).peakToPeak = none ∧
      (channelFeatures []).mean ≠ some 0 := by
  refine ⟨?_, ?_, ?_, rfl, ?_⟩ <;> simp [channelFeatures, jsDiv]

/-- C7 (amended): the extractor has no guard.  On an empty channel the mean,
variance, standard deviation and peak-to-peak are non-finite (NaN or an
infinity) and only the zero-crossing count is 0; on every non-empty channel all
five statistics are finite; on a single-sample channel the variance, standard
deviation, peak-to-peak and zero-crossing count are 0 and the mean is the
sample itself. -/
theorem channelFeatures_cases (data : List ℝ) :
    (data = [] → (channelFeatures data).mean = none ∧
      (channelFeatures data).variance = none ∧ (channelFeatures data).stdDev = none ∧
      (channelFeatures data).peakToPeak = none ∧
      (channelFeatures data).zeroCrossings = 0) ∧
    (data ≠ [] → (∃ m, (channelFeatures data).mean = some m) ∧
      (∃ v, (channelFeatures data).variance = some v) ∧
      (∃ s, (channelFeatures data).stdDev = some s) ∧
      (∃ p, (channelFeatures data).peakToPeak = some p)) ∧
    (∀ x : ℝ, data = [x] → (channelFeatures data).variance = some 0 ∧
      (channelFeatures data).stdDev = some 0 ∧
      (channelFeatures data).peakToPeak = some 0 ∧
      (channelFeatures data).zeroCrossings = 0 ∧
      (channelFeatures data).mean = some x) := by
  refine ⟨?_, ?_, ?_⟩
  · rintro rfl
    refine ⟨?_, ?_, ?_, rfl, ?_⟩ <;> simp [channelFeatures, jsDiv, zeroCrossings]
  · intro hne
    obtain ⟨x, xs, rfl⟩ := List.exists_cons_of_ne_nil hne
    have hlen : ((x :: xs).length : ℝ) ≠ 0 := by
      simp only [List.length_cons]
      positivity
    refine ⟨⟨(x :: xs).sum / ((x :: xs).length : ℝ), ?_⟩,
      ⟨((x :: xs).map (fun b => (b - (x :: xs).sum / (x :: xs).length) ^ 2)).sum
          / ((x :: xs).length : ℝ), ?_⟩,
      ⟨Real.sqrt (((x :: xs).map
            (fun b => (b - (x :: xs).sum / (x :: xs).length) ^ 2)).sum
          / ((x :: xs).length : ℝ)), ?_⟩,
      ⟨xs.foldl max x - xs.foldl min x, ?_⟩⟩
    · simp only [channelFeatures, jsDiv, if_neg hlen]
    · simp only [channelFeatures, jsDiv, if_neg hlen]
    · simp only [channelFeatures, jsDiv, if_neg hlen]
      rfl
    · rfl
  · rintro x rfl
    refine ⟨?_, ?_, ?_, ?_, ?_⟩
    · simp [channelFeatures, jsDiv]
    · simp [channelFeatures, jsDiv]
    · show (match ([x].max?), ([x].min?) with
        | some mx, some mn => some (mx - mn)
        | _, _ => none) = some 0
      simp [List.max?, List.min?]
    · simp [channelFeatures, zeroCrossings]
    · simp [channelFeatures, jsDiv]

end ParserProofs

noncomputable section

/-- One step of the spike loop of advancedEEGAnalysis.ts `detectSpikeFrequency`
(lines 190-200); the state is `(spikeCount, inSpike)`. -/
def spikeStep (threshold : ℝ) (st : ℕ × Bool) (x : ℝ) : ℕ × Bool :=
  if threshold < x ∧ st.2 = false then (st.1 + 1, true)
  else if x ≤ threshold then (st.1, false)
  else st

/-- The spike-onset count of `detectSpikeFrequency`. -/
def spikeCount (signal : List ℝ) (threshold : ℝ) : ℕ :=
  (signal.foldl (spikeStep threshold) (0, false)).1

/-- The threshold `mean + 3·stdDev` of `detectSpikeFrequency` (population
standard deviation, computed over the whole signal). -/
def spikeThreshold (signal : List ℝ) : ℝ :=
  signal.sum / signal.length +
    3 * Real.sqrt ((signal.map (fun b => (b - signal.sum / signal.length) ^ 2)).sum /
      signal.length)

/-- advancedEEGAnalysis.ts `detectSpikeFrequency` (lines 180-203): the number of
spike onsets divided by the recording length in seconds.  (The local
`spikeDuration` of the source is computed but never read.) -/
def detectSpikeFrequency (signal : List ℝ) (samplingRate : ℚ) : ℝ :=
  (spikeCount signal (spikeThreshold signal) : ℝ) /
    ((signal.length : ℝ) / (samplingRate : ℝ))

/-- Specification-side onset test: a sample (paired with its predecessor, `none`
at the start of the signal) starts an excursion iff it is strictly above the
threshold and its predecessor, if any, is not. -/
def isOnset (threshold : ℝ) : ℝ × Option ℝ → Bool
  | (x, none) => decide (threshold < x)
  | (x, some p) => decide (threshold < x) && decide (p ≤ threshold)

/-- Specification-side count of the disjoint excursions of a signal strictly
above a threshold (one per maximal run of consecutive samples above it). -/
def runsAbove (threshold : ℝ) (l : List ℝ) : ℕ :=
  ((l.zip (none :: l.map some)).filter (isOnset threshold)).length

end

section SpikeProofs

/-- The spike loop, started on any count and any in-spike flag consistent with
the previous sample, adds exactly the number of excursion onsets of the rest of
the signal. -/
theorem spike_foldl (t : ℝ) (l : List ℝ) :
    ∀ (c : ℕ) (p : Option ℝ) (b : Bool),
      b = p.elim false (fun y => decide (t < y)) →
      (l.foldl (spikeStep t) (c, b)).1 =
        c + ((l.zip (p :: l.map some)).filter (isOnset t)).length := by
  induction l with
  | nil => intro c p b _; simp
  | cons x xs ih =>
    intro c p b hb
    have hzip : (x :: xs).zip (p :: (x :: xs).map some) =
        (x, p) :: xs.zip (some x :: xs.map some) := rfl
    rw [List.foldl_cons, hzip, List.filter_cons]
    by_cases hx : t < x
    · have honset : ∀ q : Option ℝ, q.elim false (fun y => decide (t < y)) = false →
          isOnset t (x, q) = true := by
        intro q hq
        cases q with
        | none => simp [isOnset, hx]
        | some y =>
          simp only [Option.elim] at hq
          simp only [isOnset, decide_eq_true_eq]
          simp only [decide_eq_false_iff_not, not_lt] at hq
          simp [hx, hq]
      cases hbv : b with
      | false =>
        have hstep : spikeStep t (c, false) x = (c + 1, true) := by
          simp [spikeStep, hx]
        rw [hstep, ih (c + 1) (some x) true (by simp [hx]),
          honset p (by rw [← hb, hbv]), if_pos rfl, List.length_cons]
        omega
      | true =>
        have hstep : spikeStep t (c, true) x = (c, true) := by
          simp [spikeStep, hx, not_le.mpr hx]
        obtain ⟨y, rfl⟩ : ∃ y, p = some y := by
          cases p with
          | none => rw [hbv] at hb; simp at hb
          | some y => exact ⟨y, rfl⟩
        have hy : t < y := by
          rw [hbv] at hb
          simpa using hb.symm
        have honset' : isOnset t (x, some y) = false := by
          simp [isOnset, hx, not_le.mpr hy]
        rw [hstep, ih c (some x) true (by simp [hx]), honset']
        simp
    · have hxle : x ≤ t := not_lt.mp hx
      have hstep : spikeStep t (c, b) x = (c, false) := by
        simp [spikeStep, hx, hxle]
      have honset : isOnset t (x, p) = false := by
        cases p with
        | none => simp [isOnset, hx]
        | some y => simp [isOnset, hx]
      rw [hstep, ih c (some x) false (by simp [hx]), honset]
      simp

/-- C8: the spike detector counts exactly the disjoint excursions of the signal
strictly above `mean + 3·stdDev` — one onset per maximal run of consecutive
samples above the threshold, each run separated by at least one sample at or
below it, regardless of the run's duration — and returns that count divided by
`N / samplingRate`. -/
theorem detectSpikeFrequency_counts_excursions (signal : List ℝ) (rate : ℚ) :
    spikeCount signal (spikeThreshold signal) =
      runsAbove (spikeThreshold signal) signal ∧
    detectSpikeFrequency signal rate =
      (runsAbove (spikeThreshold signal) signal : ℝ) /
        ((signal.length : ℝ) / (rate : ℝ)) := by
  have h : spikeCount signal (spikeThreshold signal) =
      runsAbove (spikeThreshold signal) signal := by
    rw [spikeCount, runsAbove,
      spike_foldl (spikeThreshold signal) signal 0 none false rfl]
    simp
  exact ⟨h, by rw [detectSpikeFrequency, h]⟩

end SpikeProofs

noncomputable section

/-- The Hann window application of advancedEEGAnalysis.ts `calculatePSD`
(lines 97-100): `window[i] *= 0.5 * (1 - cos(2πi / (window.length - 1)))`.
(For a window of length 1 the source divides zero by zero, making that single
bin NaN; the embedding's real division gives `cos 0` there instead.  No claim
reads that bin: it is the DC bin at frequency 0, below every band.) -/
def hannWindow (w : List ℝ) : List ℝ :=
  ((List.range w.length).zip w).map (fun p =>
    p.2 * (1/2 * (1 - Real.cos ((2 * Real.pi * p.1) / ((w.length : ℝ) - 1)))))

/-- JS `psd.get(freq) || 0` on the PSD accumulator: the PSD `Map` is an
insertion-ordered association list with exact rational keys. -/
def mapGetD (m : List (ℚ × ℝ)) (k : ℚ) : ℝ :=
  ((m.find? (fun p => decide (p.1 = k))).map Prod.snd).getD 0

/-- JS `psd.set(freq, v)`: replace the entry in place, else append it. -/
def mapSet (m : List (ℚ × ℝ)) (k : ℚ) (v : ℝ) : List (ℚ × ℝ) :=
  match m with
  | [] => [(k, v)]
  | p :: rest => if p.1 = k then (k, v) :: rest else p :: mapSet rest k v

/-- The accumulation loop of `calculatePSD` (lines 105-109): add each squared
windowed sample into the PSD at frequency `i · samplingRate / windowSize`. -/
def psdAccum (rate : ℚ) (wsize : ℕ) (mags : List ℝ) (psd : List (ℚ × ℝ)) :
    List (ℚ × ℝ) :=
  ((List.range mags.length).zip mags).foldl
    (fun m p =>
      mapSet m ((p.1 : ℚ) * rate / wsize) (mapGetD m ((p.1 : ℚ) * rate / wsize) + p.2))
    psd

/-- One pass of the Welch loop (lines 94-113): slice the window starting at
`pos` (JS `slice` truncates a fractional position), apply the Hann window,
square, and accumulate. -/
def psdStep (signal : List ℝ) (rate : ℚ) (wsize : ℕ) (pos : ℚ)
    (psd : List (ℚ × ℝ)) : List (ℚ × ℝ) :=
  psdAccum rate wsize
    ((hannWindow ((signal.drop pos.floor.toNat).take wsize)).map (fun x => x * x))
    psd

/-- The Welch while-loop of `calculatePSD` with explicit fuel: each pass checks
`pos + windowSize ≤ signal.length`, processes one window, counts it and
advances `pos` by `windowSize / 2` (real JS division — the advance can be
fractional).  `none` means the fuel ran out before the guard failed. -/
def psdLoop (signal : List ℝ) (rate : ℚ) (wsize : ℕ) :
    ℕ → ℚ → List (ℚ × ℝ) → ℕ → Option (List (ℚ × ℝ) × ℕ)
  | 0, _, _, _ => none
  | fuel + 1, pos, psd, windowCount =>
    if pos + (wsize : ℚ) ≤ (signal.length : ℚ) then
      psdLoop signal rate wsize fuel (pos + (wsize : ℚ) / 2)
        (psdStep signal rate wsize pos psd) (windowCount + 1)
    else some (psd, windowCount)

/-- advancedEEGAnalysis.ts `calculatePSD` (lines 86-121): the Welch loop from
`pos = 0` followed by averaging every bin by the window count.  The fuel
`2·length + 2` bounds the passes of the source's loop for every non-empty
signal (|pos| grows by at least `1/2` per pass); on the empty signal the
source's loop never terminates (`windowSize = overlap = 0`, `pos` never
advances — see `psdLoop_empty_signal_diverges`) and the `none` branch is a
formal stand-in for that divergence. -/
def calculatePSD (signal : List ℝ) (rate : ℚ) : List (ℚ × ℝ) :=
  (psdLoop signal rate (min 512 signal.length) (2 * signal.length + 2) 0 [] 0).elim []
    (fun pw => pw.1.map (fun p => (p.1, p.2 / (pw.2 : ℝ))))

/-- advancedEEGAnalysis.ts `bandPower` (lines 126-138): the mean of the PSD
values whose frequency lies in `[lowFreq, highFreq]`, 0 when no bin does. -/
def bandPower (psd : List (ℚ × ℝ)) (lowFreq highFreq : ℚ) : ℝ :=
  let inBand := psd.filter (fun p => decide (lowFreq ≤ p.1 ∧ p.1 ≤ highFreq))
  if 0 < inBand.length then (inBand.map Prod.snd).sum / (inBand.length : ℝ) else 0

/-- The pair-counting loop of advancedEEGAnalysis.ts `approximateEntropy`
(lines 148-167): ordered pairs `i < j` of template starts whose length-`pl`
windows agree pointwise within the threshold (strict `>` breaks a match, so
agreement is `≤`). -/
def countPattern (signal : List ℝ) (threshold : ℝ) (pl : ℕ) : ℕ :=
  ∑ i in Finset.range (signal.length + 1 - pl),
    ∑ j in Finset.Ico (i + 1) (signal.length + 1 - pl),
      if ∀ k ∈ Finset.range pl,
          |signal.getD (i + k) 0 - signal.getD (j + k) 0| ≤ threshold
        then 1 else 0

/-- advancedEEGAnalysis.ts `approximateEntropy` (lines 143-175); the source's
default arguments `m = 2`, `r = 0.2` are passed explicitly at the call site.
`std` is the root mean square about 0, as written (`(b - 0) ** 2`). -/
def approximateEntropy (signal : List ℝ) (m : ℕ) (r : ℝ) : ℝ :=
  let threshold := r * Real.sqrt ((signal.map (fun b => (b - 0) ^ 2)).sum / signal.length)
  let phiM := countPattern signal threshold m
  let phiM1 := countPattern signal threshold (m + 1)
  if 0 < phiM ∧ 0 < phiM1 then
    Real.log (((phiM : ℝ) * ((signal.length : ℝ) - m)) /
      ((phiM1 : ℝ) * ((signal.length : ℝ) - m - 1)))
  else 0

/-- advancedEEGAnalysis.ts `analyzeChannelSpectrum` (lines 208-236).  Each
relative power is `(power / total) * 100`; when `total = 0` the source computes
the non-finite `(0/0) * 100` (NaN), modelled through `jsDiv`. -/
def analyzeChannelSpectrum (channel : EEGChannel) (samplingRate : ℚ) :
    SpectralAnalysis :=
  let psd := calculatePSD channel.data samplingRate
  let delta := bandPower psd (1/2) 4
  let theta := bandPower psd 4 8
  let alpha := bandPower psd 8 12
  let beta := bandPower psd 12 30
  let gamma := bandPower psd 30 50
  let total := delta + theta + alpha + beta + gamma
  { channel := channel.name
    delta := ⟨delta, (jsDiv delta total).map (fun q => q * 100)⟩
    theta := ⟨theta, (jsDiv theta total).map (fun q => q * 100)⟩
    alpha := ⟨alpha, (jsDiv alpha total).map (fun q => q * 100)⟩
    beta := ⟨beta, (jsDiv beta total).map (fun q => q * 100)⟩
    gamma := ⟨gamma, (jsDiv gamma total).map (fun q => q * 100)⟩
    deltaTheta := if 0 < delta ∧ 0 < theta then delta / theta else 0
    alphaAbsolute := alpha
    complexity := approximateEntropy channel.data 2 (1/5)
    spikeFrequency := detectSpikeFrequency channel.data samplingRate }

/-- advancedEEGAnalysis.ts `calculateCorrelation` (lines 293-313): Pearson
correlation over the first `min(|x|, |y|)` samples of each list, 0 when the
denominator is not positive. -/
def calculateCorrelation (x y : List ℝ) : ℝ :=
  let n := min x.length y.length
  let xMean := (x.take n).sum / (n : ℝ)
  let yMean := (y.take n).sum / (n : ℝ)
  let numerator := ∑ i in Finset.range n, (x.getD i 0 - xMean) * (y.getD i 0 - yMean)
  let xDenom := ∑ i in Finset.range n, (x.getD i 0 - xMean) ^ 2
  let yDenom := ∑ i in Finset.range n, (y.getD i 0 - yMean) ^ 2
  if 0 < Real.sqrt (xDenom * yDenom) then numerator / Real.sqrt (xDenom * yDenom)
  else 0

/-- The fixed frontal electrode-name set of `calculateConnectivity`. -/
def frontalChannels : List String := ["Fp1", "Fp2", "F7", "F3", "Fz", "F4", "F8"]

/-- The fixed temporal electrode-name set of `calculateConnectivity`. -/
def temporalChannels : List String := ["T7", "T8", "P7", "P8"]

/-- The per-channel signal power (variance about the channel mean) accumulated
by `calculateConnectivity` (lines 252-254). -/
def channelPower (data : List ℝ) : ℝ :=
  (data.map (fun b => (b - data.sum / data.length) ^ 2)).sum / (data.length : ℝ)

/-- Placeholder channel for out-of-range list reads in the embedding of the
connectivity pair loop (never actually read: the loop indices stay in range). -/
def defaultChannel : EEGChannel := ⟨"", [], 0⟩

/-- The mean absolute pairwise Pearson correlation of `calculateConnectivity`
(lines 268-279): summed over unordered channel pairs and divided by
`n(n-1)/2`, left 0 when fewer than two channels. -/
def totalCoherence (channels : List EEGChannel) : ℝ :=
  if 1 < channels.length then
    (∑ i in Finset.range channels.length, ∑ j in Finset.Ioo i channels.length,
        |calculateCorrelation (channels.getD i defaultChannel).data
          (channels.getD j defaultChannel).data|) /
      ((channels.length : ℝ) * ((channels.length : ℝ) - 1) / 2)
  else 0

/-- advancedEEGAnalysis.ts `calculateConnectivity` (lines 241-288): region
powers are normalized by the fixed name-list lengths (7 and 4) regardless of
how many of those channels the recording has. -/
def calculateConnectivity (parsedData : ParsedEEGData) : ConnectivityMetrics :=
  let channels := parsedData.channels
  let frontalPower :=
    ((channels.filter (fun c => decide (c.name ∈ frontalChannels))).map
      (fun c => channelPower c.data)).sum / (frontalChannels.length : ℝ)
  let temporalPower :=
    ((channels.filter (fun c => decide (c.name ∈ temporalChannels))).map
      (fun c => channelPower c.data)).sum / (temporalChannels.length : ℝ)
  let tc := totalCoherence channels
  { localCoherence := tc
    remoteCoherence := max 0 (tc - 1/5)
    synchronization := tc
    frontalPower := frontalPower
    temporalPower := temporalPower }

/-- The aggregate result of advancedEEGAnalysis.ts `performAdvancedAnalysis`;
the biomarker summary list of the source is omitted (no claim reads it). -/
structure AdvancedEEGMetrics where
  spectralAnalyses : List SpectralAnalysis
  connectivity : ConnectivityMetrics
  riskFactors : SchizophreniaRisk
  schizophreniaRiskScore : ℝ

/-- advancedEEGAnalysis.ts `performAdvancedAnalysis` (lines 366-421): spectral
analysis per channel, connectivity, then the risk score. -/
def performAdvancedAnalysis (parsedData : ParsedEEGData) : AdvancedEEGMetrics :=
  let spectralAnalyses := parsedData.channels.map (fun c =>
    analyzeChannelSpectrum c parsedData.samplingRate)
  let connectivity := calculateConnectivity parsedData
  let riskFactors := calculateSchizophreniaRisk spectralAnalyses connectivity
  { spectralAnalyses := spectralAnalyses
    connectivity := connectivity
    riskFactors := riskFactors
    schizophreniaRiskScore := riskFactors.score }

end

section PSDProofs

/-- C6 refuted at the empty signal: the Welch loop of `calculatePSD` never
terminates there.  With `windowSize = min 512 0 = 0` and `overlap = 0`, the
guard `pos + windowSize ≤ length` holds at `pos = 0` forever and `pos` never
advances: whatever finite fuel is granted, the loop is still running — the
source never returns, instead of producing an empty/zero spectrum. -/
theorem psdLoop_empty_signal_diverges (rate : ℚ) :
    ∀ (fuel : ℕ) (psd : List (ℚ × ℝ)) (windowCount : ℕ),
      psdLoop [] rate (min 512 ([] : List ℝ).length) fuel 0 psd windowCount = none := by
  intro fuel
  induction fuel with
  | zero => intro psd wc; rfl
  | succ n ih =>
    intro psd wc
    have h0 : min 512 ([] : List ℝ).length = 0 := rfl
    rw [h0] at ih ⊢
    simp only [psdLoop, List.length_nil, Nat.cast_zero, add_zero, le_refl, if_true,
      zero_div]
    exact ih _ _

/-- The Welch loop exits within the fuel whenever the window size is positive:
from any position `0 ≤ pos ≤ length` with `2(length - pos) + 2w ≤ fuel·w`, the
loop reaches the guard failure and returns `some`. -/
theorem psdLoop_terminates (signal : List ℝ) (rate : ℚ) (w : ℕ) (hw : 0 < w) :
    ∀ (fuel : ℕ) (pos : ℚ) (psd : List (ℚ × ℝ)) (wc : ℕ),
      0 ≤ pos → pos ≤ (signal.length : ℚ) →
      2 * ((signal.length : ℚ) - pos) + 2 * w ≤ (fuel : ℚ) * w →
      ∃ out wcOut, psdLoop signal rate w fuel pos psd wc = some (out, wcOut) := by
  have hwQ : (0 : ℚ) < (w : ℚ) := by exact_mod_cast hw
  intro fuel
  induction fuel with
  | zero =>
    intro pos psd wc h0 hlen hfuel
    exfalso
    push_cast at hfuel
    nlinarith
  | succ n ih =>
    intro pos psd wc h0 hlen hfuel
    simp only [psdLoop]
    by_cases hg : pos + (w : ℚ) ≤ (signal.length : ℚ)
    · rw [if_pos hg]
      apply ih
      · positivity
      · linarith
      · push_cast at hfuel ⊢
        linarith
    · rw [if_neg hg]
      exact ⟨psd, wc, rfl⟩

/-- For every non-empty signal the embedded fuel `2·length + 2` is enough: the
`none` (divergence) branch of `calculatePSD` is reached only for the empty
signal, where the source's loop really never exits. -/
theorem calculatePSD_defined (signal : List ℝ) (hne : signal ≠ []) (rate : ℚ) :
    ∃ out wcOut, psdLoop signal rate (min 512 signal.length)
      (2 * signal.length + 2) 0 [] 0 = some (out, wcOut) := by
  have hlen : 0 < signal.length := List.length_pos.mpr hne
  have hw : 0 < min 512 signal.length := by omega
  apply psdLoop_terminates signal rate _ hw _ _ _ _ le_rfl
  · positivity
  · have hc : ((2 * signal.length + 2 : ℕ) : ℚ) = 2 * (signal.length : ℚ) + 2 := by
      push_cast
      ring
    rw [hc]
    have h1 : (1 : ℚ) ≤ ((min 512 signal.length : ℕ) : ℚ) := by exact_mod_cast hw
    have h2 : (1 : ℚ) ≤ ((signal.length : ℕ) : ℚ) := by exact_mod_cast hlen
    nlinarith

/-- `Map.get(k) || 0` on a PSD whose stored values are all 0 is 0. -/
theorem mapGetD_of_zero {m : List (ℚ × ℝ)} (hm : ∀ p ∈ m, p.2 = 0) (k : ℚ) :
    mapGetD m k = 0 := by
  rw [mapGetD]
  cases hf : m.find? (fun p => decide (p.1 = k)) with
  | none => rfl
  | some p => simp [hm p (List.mem_of_find?_eq_some hf)]

/-- `Map.set` with value 0 keeps a PSD all-zero. -/
theorem mapSet_zero {m : List (ℚ × ℝ)} (hm : ∀ p ∈ m, p.2 = 0) (k : ℚ) :
    ∀ q ∈ mapSet m k 0, q.2 = 0 := by
  induction m with
  | nil =>
    intro q hq
    simp only [mapSet, List.mem_singleton] at hq
    simp [hq]
  | cons p rest ih =>
    intro q hq
    simp only [mapSet] at hq
    by_cases hpk : p.1 = k
    · rw [if_pos hpk] at hq
      rcases List.mem_cons.mp hq with h | h
      · simp [h]
      · exact hm q (List.mem_cons_of_mem p h)
    · rw [if_neg hpk] at hq
      rcases List.mem_cons.mp hq with h | h
      · exact h ▸ hm p (List.mem_cons_self p rest)
      · exact ih (fun r hr => hm r (List.mem_cons_of_mem p hr)) q h

/-- The accumulation fold of `calculatePSD`, fed all-zero magnitudes, keeps the
PSD all-zero. -/
theorem psdAccum_zero (rate : ℚ) (wsize : ℕ) {mags : List ℝ}
    (hmags : ∀ x ∈ mags, x = 0) {psd : List (ℚ × ℝ)} (hpsd : ∀ p ∈ psd, p.2 = 0) :
    ∀ q ∈ psdAccum rate wsize mags psd, q.2 = 0 := by
  rw [psdAccum]
  have main : ∀ (L : List (ℕ × ℝ)), (∀ pr ∈ L, pr.2 = (0:ℝ)) →
      ∀ (acc : List (ℚ × ℝ)), (∀ p ∈ acc, p.2 = 0) →
      ∀ q ∈ L.foldl (fun m p => mapSet m ((p.1 : ℚ) * rate / wsize)
        (mapGetD m ((p.1 : ℚ) * rate / wsize) + p.2)) acc, q.2 = 0 := by
    intro L
    induction L with
    | nil => intro _ acc hacc q hq; exact hacc q hq
    | cons pr L ih =>
      intro hL acc hacc
      rw [List.foldl_cons]
      refine ih (fun r hr => hL r (List.mem_cons_of_mem pr hr)) _ ?_
      have hval : mapGetD acc ((pr.1 : ℚ) * rate / wsize) + pr.2 = 0 := by
        rw [mapGetD_of_zero hacc, hL pr (List.mem_cons_self pr L), add_zero]
      rw [hval]
      exact mapSet_zero hacc _
  refine main _ ?_ psd hpsd
  intro pr hpr
  exact hmags pr.2 (List.of_mem_zip hpr).2

/-- One Welch pass over an all-zero signal keeps the PSD all-zero. -/
theorem psdStep_zero {signal : List ℝ} (hs : ∀ x ∈ signal, x = 0) (rate : ℚ)
    (wsize : ℕ) (pos : ℚ) {psd : List (ℚ × ℝ)} (hpsd : ∀ p ∈ psd, p.2 = 0) :
    ∀ q ∈ psdStep signal rate wsize pos psd, q.2 = 0 := by
  rw [psdStep]
  refine psdAccum_zero rate wsize ?_ hpsd
  intro x hx
  rcases List.mem_map.mp hx with ⟨y, hy, rfl⟩
  rcases List.mem_map.mp hy with ⟨p, hp, rfl⟩
  have hz : p.2 = 0 :=
    hs _ (List.mem_of_mem_drop (List.mem_of_mem_take (List.of_mem_zip hp).2))
  simp [hz]

/-- The whole Welch loop over an all-zero signal returns an all-zero PSD. -/
theorem psdLoop_zero {signal : List ℝ} (hs : ∀ x ∈ signal, x = 0) (rate : ℚ)
    (wsize : ℕ) :
    ∀ (fuel : ℕ) (pos : ℚ) (psd : List (ℚ × ℝ)) (wc : ℕ),
      (∀ p ∈ psd, p.2 = 0) →
      ∀ out wcOut, psdLoop signal rate wsize fuel pos psd wc = some (out, wcOut) →
      ∀ q ∈ out, q.2 = 0 := by
  intro fuel
  induction fuel with
  | zero =>
    intro pos psd wc _ out wcOut h
    exact absurd h (by simp [psdLoop])
  | succ n ih =>
    intro pos psd wc hpsd out wcOut h
    simp only [psdLoop] at h
    by_cases hg : pos + (wsize : ℚ) ≤ (signal.length : ℚ)
    · rw [if_pos hg] at h
      exact ih _ _ _ (psdStep_zero hs rate wsize pos hpsd) out wcOut h
    · rw [if_neg hg] at h
      simp only [Option.some.injEq, Prod.mk.injEq] at h
      obtain ⟨rfl, rfl⟩ := h
      exact hpsd

/-- `calculatePSD` of an all-zero signal stores only zero values. -/
theorem calculatePSD_zero {signal : List ℝ} (hs : ∀ x ∈ signal, x = 0) (rate : ℚ) :
    ∀ q ∈ calculatePSD signal rate, q.2 = 0 := by
  rw [calculatePSD]
  cases hloop : psdLoop signal rate (min 512 signal.length)
      (2 * signal.length + 2) 0 [] 0 with
  | none => simp [Option.elim]
  | some pw =>
    intro q hq
    simp only [Option.elim] at hq
    rcases List.mem_map.mp hq with ⟨p, hp, rfl⟩
    have hz := psdLoop_zero hs rate (min 512 signal.length) (2 * signal.length + 2)
      0 [] 0 (by simp) pw.1 pw.2 (by rw [hloop]) p hp
    simp [hz]

/-- `bandPower` of an all-zero PSD is 0. -/
theorem bandPower_zero {psd : List (ℚ × ℝ)} (h : ∀ q ∈ psd, q.2 = 0)
    (lo hi : ℚ) : bandPower psd lo hi = 0 := by
  simp only [bandPower]
  have hsum : ((psd.filter (fun p => decide (lo ≤ p.1 ∧ p.1 ≤ hi))).map
      Prod.snd).sum = 0 := by
    apply List.sum_eq_zero
    intro x hx
    rcases List.mem_map.mp hx with ⟨p, hp, rfl⟩
    exact h p (List.mem_of_mem_filter hp)
  by_cases hl : 0 < (psd.filter (fun p => decide (lo ≤ p.1 ∧ p.1 ≤ hi))).length
  · rw [if_pos hl, hsum, zero_div]
  · rw [if_neg hl]

end PSDProofs

section AllZeroProofs

/-- `getD` with default 0 on an all-zero list is 0 at every index. -/
theorem getD_zero_of_all_zero {l : List ℝ} (h : ∀ x ∈ l, x = 0) (i : ℕ) :
    l.getD i 0 = 0 := by
  rw [List.getD_eq_getElem?_getD]
  cases hv : l[i]? with
  | none => rfl
  | some v => simpa using h v (List.getElem?_mem hv)

/-- The spike threshold `mean + 3·stdDev` of an all-zero signal is 0. -/
theorem spikeThreshold_zero {l : List ℝ} (h : ∀ x ∈ l, x = 0) :
    spikeThreshold l = 0 := by
  rw [spikeThreshold]
  have hsum : l.sum = 0 := List.sum_eq_zero h
  have hmap : (l.map (fun b => (b - l.sum / l.length) ^ 2)).sum = 0 := by
    apply List.sum_eq_zero
    intro x hx
    rcases List.mem_map.mp hx with ⟨b, hb, rfl⟩
    rw [h b hb, hsum]
    simp
  rw [hmap, hsum]
  simp

/-- An all-zero signal has no spike onsets: its spike rate is 0. -/
theorem detectSpikeFrequency_zero {l : List ℝ} (h : ∀ x ∈ l, x = 0) (rate : ℚ) :
    detectSpikeFrequency l rate = 0 := by
  rw [detectSpikeFrequency]
  have hcount : spikeCount l (spikeThreshold l) = 0 := by
    rw [spikeCount, spike_foldl (spikeThreshold l) l 0 none false rfl]
    have hnil : (l.zip (none :: l.map some)).filter (isOnset (spikeThreshold l)) = [] := by
      rw [List.filter_eq_nil_iff]
      rintro ⟨x, po⟩ hpr
      have hx0 : x = 0 := h x (List.of_mem_zip hpr).1
      subst hx0
      rw [spikeThreshold_zero h]
      cases po <;> simp [isOnset]
    rw [hnil]
    rfl
  rw [hcount]
  simp

/-- `countPattern` with pattern length 3 is 0 on any signal with at most 3
samples: the inner `j` loop never runs. -/
theorem countPattern_three_short {l : List ℝ} (h : l.length ≤ 3) (θ : ℝ) :
    countPattern l θ 3 = 0 := by
  rw [countPattern]
  apply Finset.sum_eq_zero
  intro i _
  have he : Finset.Ico (i + 1) (l.length + 1 - 3) = ∅ :=
    Finset.Ico_eq_empty (by omega)
  rw [he, Finset.sum_empty]

/-- The approximate entropy (m = 2) of any signal with at most 3 samples is 0:
the `m+1` match count is 0, so the guard takes the 0 branch. -/
theorem approximateEntropy_short {l : List ℝ} (h : l.length ≤ 3) (r : ℝ) :
    approximateEntropy l 2 r = 0 := by
  simp only [approximateEntropy]
  rw [show (2 : ℕ) + 1 = 3 from rfl, countPattern_three_short h]
  simp

/-- The Pearson correlation of two all-zero (or empty) sample lists is 0: the
denominator guard fires. -/
theorem calculateCorrelation_zero {x y : List ℝ} (hx : ∀ a ∈ x, a = 0)
    (hy : ∀ a ∈ y, a = 0) : calculateCorrelation x y = 0 := by
  simp only [calculateCorrelation]
  have hxs : (x.take (min x.length y.length)).sum = 0 :=
    List.sum_eq_zero (fun a ha => hx a (List.mem_of_mem_take ha))
  have hxd : (∑ i in Finset.range (min x.length y.length),
      (x.getD i 0 - (x.take (min x.length y.length)).sum /
        ((min x.length y.length : ℕ) : ℝ)) ^ 2) = 0 := by
    apply Finset.sum_eq_zero
    intro i _
    rw [getD_zero_of_all_zero hx, hxs]
    simp
  rw [hxd]
  simp

/-- Every channel read from an all-zero recording (in range or the default) has
all-zero data. -/
theorem getD_channel_all_zero {channels : List EEGChannel}
    (h : ∀ c ∈ channels, ∀ x ∈ c.data, x = 0) (i : ℕ) :
    ∀ a ∈ (channels.getD i defaultChannel).data, a = 0 := by
  rw [List.getD_eq_getElem?_getD]
  cases hv : channels[i]? with
  | none => intro a ha; simp [defaultChannel] at ha
  | some c => exact h c (List.getElem?_mem hv)

/-- The mean absolute pairwise correlation of an all-zero recording is 0. -/
theorem totalCoherence_zero {channels : List EEGChannel}
    (h : ∀ c ∈ channels, ∀ x ∈ c.data, x = 0) : totalCoherence channels = 0 := by
  rw [totalCoherence]
  by_cases hn : 1 < channels.length
  · rw [if_pos hn]
    have hsum : (∑ i in Finset.range channels.length,
        ∑ j in Finset.Ioo i channels.length,
          |calculateCorrelation (channels.getD i defaultChannel).data
            (channels.getD j defaultChannel).data|) = 0 := by
      apply Finset.sum_eq_zero
      intro i _
      apply Finset.sum_eq_zero
      intro j _
      rw [calculateCorrelation_zero (getD_channel_all_zero h i)
        (getD_channel_all_zero h j), abs_zero]
    rw [hsum, zero_div]
  · rw [if_neg hn]

/-- The synchronization index of an all-zero recording is 0. -/
theorem calculateConnectivity_sync_zero {pd : ParsedEEGData}
    (h : ∀ c ∈ pd.channels, ∀ x ∈ c.data, x = 0) :
    (calculateConnectivity pd).synchronization = 0 := by
  simp only [calculateConnectivity]
  exact totalCoherence_zero h

end AllZeroProofs

section SpectrumProofs

/-- All five band powers of an all-zero channel are 0. -/
theorem spectrum_bands_zero (ch : EEGChannel) (rate : ℚ)
    (h : ∀ x ∈ ch.data, x = 0) :
    (analyzeChannelSpectrum ch rate).delta.power = 0 ∧
    (analyzeChannelSpectrum ch rate).theta.power = 0 ∧
    (analyzeChannelSpectrum ch rate).alpha.power = 0 ∧
    (analyzeChannelSpectrum ch rate).beta.power = 0 ∧
    (analyzeChannelSpectrum ch rate).gamma.power = 0 := by
  have hb := bandPower_zero (calculatePSD_zero h rate)
  simp only [analyzeChannelSpectrum]
  exact ⟨hb _ _, hb _ _, hb _ _, hb _ _, hb _ _⟩

/-- All five relative powers of an all-zero channel are `none` (NaN): the total
power is 0 and the source divides 0 by 0. -/
theorem spectrum_relatives_none (ch : EEGChannel) (rate : ℚ)
    (h : ∀ x ∈ ch.data, x = 0) :
    (analyzeChannelSpectrum ch rate).delta.relative = none ∧
    (analyzeChannelSpectrum ch rate).theta.relative = none ∧
    (analyzeChannelSpectrum ch rate).alpha.relative = none ∧
    (analyzeChannelSpectrum ch rate).beta.relative = none ∧
    (analyzeChannelSpectrum ch rate).gamma.relative = none := by
  have hb := bandPower_zero (calculatePSD_zero h rate)
  simp [analyzeChannelSpectrum, jsDiv, hb]

/-- The delta/theta ratio of an all-zero channel is 0 (both powers are 0, the
positivity guard fails). -/
theorem spectrum_deltaTheta_zero (ch : EEGChannel) (rate : ℚ)
    (h : ∀ x ∈ ch.data, x = 0) :
    (analyzeChannelSpectrum ch rate).deltaTheta = 0 := by
  have hb := bandPower_zero (calculatePSD_zero h rate)
  simp [analyzeChannelSpectrum, hb]

/-- The absolute alpha power of an all-zero channel is 0. -/
theorem spectrum_alphaAbsolute_zero (ch : EEGChannel) (rate : ℚ)
    (h : ∀ x ∈ ch.data, x = 0) :
    (analyzeChannelSpectrum ch rate).alphaAbsolute = 0 := by
  have hb := bandPower_zero (calculatePSD_zero h rate)
  simp [analyzeChannelSpectrum, hb]

/-- The spike rate of an all-zero channel is 0. -/
theorem spectrum_spike_zero (ch : EEGChannel) (rate : ℚ)
    (h : ∀ x ∈ ch.data, x = 0) :
    (analyzeChannelSpectrum ch rate).spikeFrequency = 0 := by
  simp only [analyzeChannelSpectrum]
  exact detectSpikeFrequency_zero h rate

/-- The complexity of any channel with at most 3 samples is 0. -/
theorem spectrum_complexity_short (ch : EEGChannel) (rate : ℚ)
    (hlen : ch.data.length ≤ 3) :
    (analyzeChannelSpectrum ch rate).complexity = 0 := by
  simp only [analyzeChannelSpectrum]
  exact approximateEntropy_short hlen _

/-- C5 (amended): for an all-zero non-empty channel of any length, the five
band absolute powers, the delta/theta ratio and the spike rate are all 0, and
the complexity (approximate entropy) is 0 whenever the channel has at most 3
samples.  (For length N ≥ 4 the all-zero channel's complexity is instead
`log((N-1)(N-2)/(N-3)²) > 0` — see the counterexample at length 4, where it is
`log 6`.) -/
theorem analyzeChannelSpectrum_all_zero (ch : EEGChannel) (rate : ℚ)
    (hne : ch.data ≠ []) (h : ∀ x ∈ ch.data, x = 0) :
    (analyzeChannelSpectrum ch rate).delta.power = 0 ∧
    (analyzeChannelSpectrum ch rate).theta.power = 0 ∧
    (analyzeChannelSpectrum ch rate).alpha.power = 0 ∧
    (analyzeChannelSpectrum ch rate).beta.power = 0 ∧
    (analyzeChannelSpectrum ch rate).gamma.power = 0 ∧
    (analyzeChannelSpectrum ch rate).deltaTheta = 0 ∧
    (analyzeChannelSpectrum ch rate).spikeFrequency = 0 ∧
    (ch.data.length ≤ 3 → (analyzeChannelSpectrum ch rate).complexity = 0) := by
  obtain ⟨h1, h2, h3, h4, h5⟩ := spectrum_bands_zero ch rate h
  exact ⟨h1, h2, h3, h4, h5, spectrum_deltaTheta_zero ch rate h,
    spectrum_spike_zero ch rate h, fun hlen => spectrum_complexity_short ch rate hlen⟩

/-- Witness for C5 (amended) at the all-zero two-sample channel. -/
theorem analyzeChannelSpectrum_all_zero_witness :
    (analyzeChannelSpectrum ⟨"A", [0, 0], 256⟩ 256).delta.power = 0 ∧
    (analyzeChannelSpectrum ⟨"A", [0, 0], 256⟩ 256).theta.power = 0 ∧
    (analyzeChannelSpectrum ⟨"A", [0, 0], 256⟩ 256).alpha.power = 0 ∧
    (analyzeChannelSpectrum ⟨"A", [0, 0], 256⟩ 256).beta.power = 0 ∧
    (analyzeChannelSpectrum ⟨"A", [0, 0], 256⟩ 256).gamma.power = 0 ∧
    (analyzeChannelSpectrum ⟨"A", [0, 0], 256⟩ 256).deltaTheta = 0 ∧
    (analyzeChannelSpectrum ⟨"A", [0, 0], 256⟩ 256).spikeFrequency = 0 ∧
    ((⟨"A", [0, 0], 256⟩ : EEGChannel).data.length ≤ 3 →
      (analyzeChannelSpectrum ⟨"A", [0, 0], 256⟩ 256).complexity = 0) :=
  analyzeChannelSpectrum_all_zero ⟨"A", [0, 0], 256⟩ 256
    (List.cons_ne_nil 0 [0]) (by simp)

end SpectrumProofs

section ComplexityCounterexample

/-- Every read of the all-zero four-sample list is 0. -/
theorem getD_four_zeros (n : ℕ) : ([0, 0, 0, 0] : List ℝ).getD n 0 = 0 := by
  rcases n with _ | _ | _ | _ | n <;> rfl

/-- The length-2 template pair count of the all-zero four-sample signal at
threshold 0: all three `i < j` pairs match. -/
theorem countPattern_four_zeros_two : countPattern [0, 0, 0, 0] 0 2 = 3 := by
  rw [countPattern]
  have hlen : ([0, 0, 0, 0] : List ℝ).length + 1 - 2 = 3 := by simp
  rw [hlen]
  have hone : ∀ i ∈ Finset.range 3, ∀ j ∈ Finset.Ico (i + 1) 3,
      (if ∀ k ∈ Finset.range 2,
          |([0, 0, 0, 0] : List ℝ).getD (i + k) 0 -
            ([0, 0, 0, 0] : List ℝ).getD (j + k) 0| ≤ (0 : ℝ)
        then (1 : ℕ) else 0) = 1 := by
    intro i _ j _
    rw [if_pos]
    intro k _
    rw [getD_four_zeros (i + k), getD_four_zeros (j + k)]
    simp
  rw [Finset.sum_congr rfl (fun i hi => Finset.sum_congr rfl (hone i hi))]
  decide

/-- The length-3 template pair count of the all-zero four-sample signal at
threshold 0: the single `i < j` pair matches. -/
theorem countPattern_four_zeros_three : countPattern [0, 0, 0, 0] 0 3 = 1 := by
  rw [countPattern]
  have hlen : ([0, 0, 0, 0] : List ℝ).length + 1 - 3 = 2 := by simp
  rw [hlen]
  have hone : ∀ i ∈ Finset.range 2, ∀ j ∈ Finset.Ico (i + 1) 2,
      (if ∀ k ∈ Finset.range 3,
          |([0, 0, 0, 0] : List ℝ).getD (i + k) 0 -
            ([0, 0, 0, 0] : List ℝ).getD (j + k) 0| ≤ (0 : ℝ)
        then (1 : ℕ) else 0) = 1 := by
    intro i _ j _
    rw [if_pos]
    intro k _
    rw [getD_four_zeros (i + k), getD_four_zeros (j + k)]
    simp
  rw [Finset.sum_congr rfl (fun i hi => Finset.sum_congr rfl (hone i hi))]
  decide

/-- C5's counterexample: the all-zero channel of length 4.  The entropy
threshold is 0, every template pair matches (`φ₂ = 3`, `φ₃ = 1`), the guard
passes, and the complexity is `log((3·(4-2))/(1·(4-2-1))) = log 6 ≠ 0` — the
claim's "complexity 0 for any length" fails at length 4. -/
theorem analyzeChannelSpectrum_len4_complexity :
    (analyzeChannelSpectrum ⟨"A", [0, 0, 0, 0], 256⟩ 256).complexity = Real.log 6 ∧
    (analyzeChannelSpectrum ⟨"A", [0, 0, 0, 0], 256⟩ 256).complexity ≠ 0 := by
  have hc : (analyzeChannelSpectrum ⟨"A", [0, 0, 0, 0], 256⟩ 256).complexity =
      approximateEntropy [0, 0, 0, 0] 2 (1/5) := rfl
  have hθ : (1/5 : ℝ) * Real.sqrt ((([0, 0, 0, 0] : List ℝ).map
      (fun b => (b - 0) ^ 2)).sum / (([0, 0, 0, 0] : List ℝ).length : ℝ)) = 0 := by
    norm_num
  have happ : approximateEntropy [0, 0, 0, 0] 2 (1/5) = Real.log 6 := by
    simp only [approximateEntropy]
    rw [hθ, show (2 : ℕ) + 1 = 3 from rfl, countPattern_four_zeros_two,
      countPattern_four_zeros_three]
    norm_num
  refine ⟨by rw [hc, happ], ?_⟩
  rw [hc, happ]
  exact (Real.log_pos (by norm_num)).ne'

end ComplexityCounterexample

section RelativePowerProofs

/-- C3 (amended): for every channel the five relative band powers are
`(absolutePower / total) · 100` and sum to exactly 100 whenever the total band
power is strictly positive; but when the total is 0 every relative power is the
non-finite `(0/0)·100` (NaN), not 0 — the source has no zero-total guard. -/
theorem analyzeChannelSpectrum_relative (ch : EEGChannel) (rate : ℚ) :
    (0 < (analyzeChannelSpectrum ch rate).delta.power +
        (analyzeChannelSpectrum ch rate).theta.power +
        (analyzeChannelSpectrum ch rate).alpha.power +
        (analyzeChannelSpectrum ch rate).beta.power +
        (analyzeChannelSpectrum ch rate).gamma.power →
      (analyzeChannelSpectrum ch rate).delta.relative =
        some ((analyzeChannelSpectrum ch rate).delta.power /
          ((analyzeChannelSpectrum ch rate).delta.power +
            (analyzeChannelSpectrum ch rate).theta.power +
            (analyzeChannelSpectrum ch rate).alpha.power +
            (analyzeChannelSpectrum ch rate).beta.power +
            (analyzeChannelSpectrum ch rate).gamma.power) * 100) ∧
      (analyzeChannelSpectrum ch rate).theta.relative =
        some ((analyzeChannelSpectrum ch rate).theta.power /
          ((analyzeChannelSpectrum ch rate).delta.power +
            (analyzeChannelSpectrum ch rate).theta.power +
            (analyzeChannelSpectrum ch rate).alpha.power +
            (analyzeChannelSpectrum ch rate).beta.power +
            (analyzeChannelSpectrum ch rate).gamma.power) * 100) ∧
      (analyzeChannelSpectrum ch rate).alpha.relative =
        some ((analyzeChannelSpectrum ch rate).alpha.power /
          ((analyzeChannelSpectrum ch rate).delta.power +
            (analyzeChannelSpectrum ch rate).theta.power +
            (analyzeChannelSpectrum ch rate).alpha.power +
            (analyzeChannelSpectrum ch rate).beta.power +
            (analyzeChannelSpectrum ch rate).gamma.power) * 100) ∧
      (analyzeChannelSpectrum ch rate).beta.relative =
        some ((analyzeChannelSpectrum ch rate).beta.power /
          ((analyzeChannelSpectrum ch rate).delta.power +
            (analyzeChannelSpectrum ch rate).theta.power +
            (analyzeChannelSpectrum ch rate).alpha.power +
            (analyzeChannelSpectrum ch rate).beta.power +
            (analyzeChannelSpectrum ch rate).gamma.power) * 100) ∧
      (analyzeChannelSpectrum ch rate).gamma.relative =
        some ((analyzeChannelSpectrum ch rate).gamma.power /
          ((analyzeChannelSpectrum ch rate).delta.power +
            (analyzeChannelSpectrum ch rate).theta.power +
            (analyzeChannelSpectrum ch rate).alpha.power +
            (analyzeChannelSpectrum ch rate).beta.power +
            (analyzeChannelSpectrum ch rate).gamma.power) * 100) ∧
      ((analyzeChannelSpectrum ch rate).delta.relative.getD 0 +
        (analyzeChannelSpectrum ch rate).theta.relative.getD 0 +
        (analyzeChannelSpectrum ch rate).alpha.relative.getD 0 +
        (analyzeChannelSpectrum ch rate).beta.relative.getD 0 +
        (analyzeChannelSpectrum ch rate).gamma.relative.getD 0) = 100) ∧
    ((analyzeChannelSpectrum ch rate).delta.power +
        (analyzeChannelSpectrum ch rate).theta.power +
        (analyzeChannelSpectrum ch rate).alpha.power +
        (analyzeChannelSpectrum ch rate).beta.power +
        (analyzeChannelSpectrum ch rate).gamma.power = 0 →
      (analyzeChannelSpectrum ch rate).delta.relative = none ∧
      (analyzeChannelSpectrum ch rate).theta.relative = none ∧
      (analyzeChannelSpectrum ch rate).alpha.relative = none ∧
      (analyzeChannelSpectrum ch rate).beta.relative = none ∧
      (analyzeChannelSpectrum ch rate).gamma.relative = none) := by
  simp only [analyzeChannelSpectrum]
  constructor
  · intro hpos
    have hT : bandPower (calculatePSD ch.data rate) (1/2) 4 +
        bandPower (calculatePSD ch.data rate) 4 8 +
        bandPower (calculatePSD ch.data rate) 8 12 +
        bandPower (calculatePSD ch.data rate) 12 30 +
        bandPower (calculatePSD ch.data rate) 30 50 ≠ 0 := ne_of_gt hpos
    refine ⟨?_, ?_, ?_, ?_, ?_, ?_⟩ <;> simp only [jsDiv, if_neg hT]
    · rfl
    · rfl
    · rfl
    · rfl
    · rfl
    · simp only [Option.map_some', Option.getD_some]
      field_simp
      ring
  · intro h0
    simp only [jsDiv]
    rw [h0]
    simp

/-- C3's counterexample: on the all-zero two-sample channel every band power is
0, the total is 0, and the relative delta power is the non-finite `(0/0)·100`
(NaN, modelled `none`) — in particular it is not 0 as the claim states. -/
theorem analyzeChannelSpectrum_relative_nan_cx :
    (analyzeChannelSpectrum ⟨"A", [0, 0], 256⟩ 256).delta.power +
      (analyzeChannelSpectrum ⟨"A", [0, 0], 256⟩ 256).theta.power +
      (analyzeChannelSpectrum ⟨"A", [0, 0], 256⟩ 256).alpha.power +
      (analyzeChannelSpectrum ⟨"A", [0, 0], 256⟩ 256).beta.power +
      (analyzeChannelSpectrum ⟨"A", [0, 0], 256⟩ 256).gamma.power = 0 ∧
    (analyzeChannelSpectrum ⟨"A", [0, 0], 256⟩ 256).delta.relative = none ∧
    (analyzeChannelSpectrum ⟨"A", [0, 0], 256⟩ 256).delta.relative ≠ some 0 := by
  have hz : ∀ x ∈ (⟨"A", [0, 0], 256⟩ : EEGChannel).data, x = 0 := by simp
  obtain ⟨h1, h2, h3, h4, h5⟩ := spectrum_bands_zero ⟨"A", [0, 0], 256⟩ 256 hz
  obtain ⟨hr, _, _, _, _⟩ := spectrum_relatives_none ⟨"A", [0, 0], 256⟩ 256 hz
  refine ⟨by rw [h1, h2, h3, h4, h5]; ring, hr, ?_⟩
  rw [hr]
  simp

end RelativePowerProofs

section PipelineProofs

/-- Sub-score arithmetic at all-zero inputs: the composite risk is 35, because
alpha power 0 contributes the full `reducedAlpha = 20` and synchronization 0
the full `connectivity = 15`, while the other three sub-scores are 0. -/
theorem risk_all_zero_inputs {sa : List SpectralAnalysis} {cm : ConnectivityMetrics}
    (hdt : ∀ x ∈ sa.map SpectralAnalysis.deltaTheta, x = (0:ℝ))
    (hal : ∀ x ∈ sa.map SpectralAnalysis.alphaAbsolute, x = (0:ℝ))
    (hcx : ∀ x ∈ sa.map SpectralAnalysis.complexity, x = (0:ℝ))
    (hsp : ∀ x ∈ sa.map SpectralAnalysis.spikeFrequency, x = (0:ℝ))
    (hsync : cm.synchronization = 0) :
    (calculateSchizophreniaRisk sa cm).score = 35 := by
  simp only [calculateSchizophreniaRisk]
  rw [List.sum_eq_zero hdt, List.sum_eq_zero hal, List.sum_eq_zero hcx,
    List.sum_eq_zero hsp, hsync]
  norm_num [min_def, max_def]

/-- Helper for C4: every all-zero recording whose channels have at most 3
samples each scores exactly 35. -/
theorem risk35_of_all_zero (pd : ParsedEEGData)
    (hzero : ∀ c ∈ pd.channels, ∀ x ∈ c.data, x = 0)
    (hlen : ∀ c ∈ pd.channels, c.data.length ≤ 3) :
    (performAdvancedAnalysis pd).schizophreniaRiskScore = 35 := by
  simp only [performAdvancedAnalysis]
  apply risk_all_zero_inputs
  · intro x hx
    rcases List.mem_map.mp hx with ⟨s, hs, rfl⟩
    rcases List.mem_map.mp hs with ⟨c, hc, rfl⟩
    exact spectrum_deltaTheta_zero c pd.samplingRate (hzero c hc)
  · intro x hx
    rcases List.mem_map.mp hx with ⟨s, hs, rfl⟩
    rcases List.mem_map.mp hs with ⟨c, hc, rfl⟩
    exact spectrum_alphaAbsolute_zero c pd.samplingRate (hzero c hc)
  · intro x hx
    rcases List.mem_map.mp hx with ⟨s, hs, rfl⟩
    rcases List.mem_map.mp hs with ⟨c, hc, rfl⟩
    exact spectrum_complexity_short c pd.samplingRate (hlen c hc)
  · intro x hx
    rcases List.mem_map.mp hx with ⟨s, hs, rfl⟩
    rcases List.mem_map.mp hs with ⟨c, hc, rfl⟩
    exact spectrum_spike_zero c pd.samplingRate (hzero c hc)
  · exact calculateConnectivity_sync_zero hzero

/-- C4 (amended): for every recording in which every channel's samples are all
zero, each channel holding between 1 and 3 samples, the pipeline's composite
risk score is 35 — not 0: zero alpha power contributes the full
`reducedAlpha = 20` and zero synchronization the full `connectivity = 15`. -/
theorem performAdvancedAnalysis_all_zero (pd : ParsedEEGData)
    (hne : pd.channels ≠ [])
    (hzero : ∀ c ∈ pd.channels, ∀ x ∈ c.data, x = 0)
    (hlen : ∀ c ∈ pd.channels, 1 ≤ c.data.length ∧ c.data.length ≤ 3) :
    (performAdvancedAnalysis pd).schizophreniaRiskScore = 35 :=
  risk35_of_all_zero pd hzero (fun c hc => (hlen c hc).2)

/-- Witness for C4 (amended) at an all-zero one-channel, one-sample recording. -/
theorem performAdvancedAnalysis_all_zero_witness :
    (performAdvancedAnalysis ⟨[⟨"B", [0], 256⟩], 0, 256⟩).schizophreniaRiskScore
      = 35 :=
  performAdvancedAnalysis_all_zero ⟨[⟨"B", [0], 256⟩], 0, 256⟩ (by simp)
    (by simp) (by simp)

/-- C4's counterexample: the all-zero single-channel two-sample recording
scores 35, which is not 0 — refuting the claim that all-zero recordings have
composite risk 0. -/
theorem performAdvancedAnalysis_all_zero_cx :
    (performAdvancedAnalysis
        ⟨[⟨"A", [0, 0], 256⟩], 0, 256⟩).schizophreniaRiskScore = 35 ∧
    (performAdvancedAnalysis
        ⟨[⟨"A", [0, 0], 256⟩], 0, 256⟩).schizophreniaRiskScore ≠ 0 := by
  have h := risk35_of_all_zero ⟨[⟨"A", [0, 0], 256⟩], 0, 256⟩ (by simp) (by simp)
  refine ⟨h, ?_⟩
  rw [h]
  norm_num

end PipelineProofs

section ConnectivityProofs

/-- The guarded quotient `num / √(Σf² · Σg²)` of a Pearson correlation lies in
`[-1, 1]`: Cauchy-Schwarz bounds the numerator, and the guard returns 0. -/
theorem pearson_aux (n : ℕ) (f g : ℕ → ℝ) :
    -1 ≤ (if 0 < Real.sqrt ((∑ i in Finset.range n, f i ^ 2) *
        (∑ i in Finset.range n, g i ^ 2)) then
      (∑ i in Finset.range n, f i * g i) /
        Real.sqrt ((∑ i in Finset.range n, f i ^ 2) * (∑ i in Finset.range n, g i ^ 2))
      else 0) ∧
    (if 0 < Real.sqrt ((∑ i in Finset.range n, f i ^ 2) *
        (∑ i in Finset.range n, g i ^ 2)) then
      (∑ i in Finset.range n, f i * g i) /
        Real.sqrt ((∑ i in Finset.range n, f i ^ 2) * (∑ i in Finset.range n, g i ^ 2))
      else 0) ≤ 1 := by
  by_cases hg : 0 < Real.sqrt ((∑ i in Finset.range n, f i ^ 2) *
      (∑ i in Finset.range n, g i ^ 2))
  · rw [if_pos hg]
    have hcs := Finset.sum_mul_sq_le_sq_mul_sq (Finset.range n) f g
    have habs : |∑ i in Finset.range n, f i * g i| ≤
        Real.sqrt ((∑ i in Finset.range n, f i ^ 2) *
          (∑ i in Finset.range n, g i ^ 2)) := by
      rw [← Real.sqrt_sq_eq_abs]
      exact Real.sqrt_le_sqrt hcs
    have h1 : |(∑ i in Finset.range n, f i * g i) /
        Real.sqrt ((∑ i in Finset.range n, f i ^ 2) *
          (∑ i in Finset.range n, g i ^ 2))| ≤ 1 := by
      rw [abs_div, abs_of_pos hg]
      exact (div_le_one hg).mpr habs
    exact abs_le.mp h1
  · rw [if_neg hg]
    norm_num

/-- Every Pearson correlation computed by the source lies in `[-1, 1]`. -/
theorem calculateCorrelation_mem (x y : List ℝ) :
    -1 ≤ calculateCorrelation x y ∧ calculateCorrelation x y ≤ 1 := by
  simp only [calculateCorrelation]
  exact pearson_aux (min x.length y.length)
    (fun i => x.getD i 0 -
      (x.take (min x.length y.length)).sum / ((min x.length y.length : ℕ) : ℝ))
    (fun i => y.getD i 0 -
      (y.take (min x.length y.length)).sum / ((min x.length y.length : ℕ) : ℝ))

/-- The mean absolute pairwise correlation lies in `[0, 1]`: the pair sum is
bounded by the pair count `n(n-1)/2`, exactly the divisor the source uses. -/
theorem totalCoherence_bounds (channels : List EEGChannel) :
    0 ≤ totalCoherence channels ∧ totalCoherence channels ≤ 1 := by
  rw [totalCoherence]
  by_cases hn : 1 < channels.length
  · rw [if_pos hn]
    have h2 : (2 : ℝ) ≤ (channels.length : ℝ) := by exact_mod_cast hn
    have hd : (0 : ℝ) < (channels.length : ℝ) * ((channels.length : ℝ) - 1) / 2 := by
      nlinarith
    have hS0 : (0 : ℝ) ≤ ∑ i in Finset.range channels.length,
        ∑ j in Finset.Ioo i channels.length,
          |calculateCorrelation (channels.getD i defaultChannel).data
            (channels.getD j defaultChannel).data| := by
      apply Finset.sum_nonneg
      intro i _
      apply Finset.sum_nonneg
      intro j _
      exact abs_nonneg _
    refine ⟨div_nonneg hS0 hd.le, ?_⟩
    rw [div_le_one hd]
    have hstep : ∀ i ∈ Finset.range channels.length,
        (∑ j in Finset.Ioo i channels.length,
          |calculateCorrelation (channels.getD i defaultChannel).data
            (channels.getD j defaultChannel).data|) ≤
        ((channels.length - i - 1 : ℕ) : ℝ) := by
      intro i _
      have hb := Finset.sum_le_card_nsmul (Finset.Ioo i channels.length)
        (fun j => |calculateCorrelation (channels.getD i defaultChannel).data
          (channels.getD j defaultChannel).data|) 1
        (fun j _ => by
          have hc := calculateCorrelation_mem
            (channels.getD i defaultChannel).data (channels.getD j defaultChannel).data
          exact abs_le.mpr hc)
      simpa [Nat.card_Ioo, nsmul_eq_mul] using hb
    have hsum := Finset.sum_le_sum hstep
    refine hsum.trans (le_of_eq ?_)
    have hrefl : ∑ i in Finset.range channels.length, (channels.length - i - 1 : ℕ) =
        ∑ i in Finset.range channels.length, i := by
      have h := Finset.sum_range_reflect (fun j => j) channels.length
      calc ∑ i in Finset.range channels.length, (channels.length - i - 1 : ℕ)
          = ∑ i in Finset.range channels.length, (channels.length - 1 - i : ℕ) := by
            apply Finset.sum_congr rfl
            intro i _
            omega
        _ = ∑ i in Finset.range channels.length, i := h
    rw [← Nat.cast_sum, hrefl]
    have hmul := Finset.sum_range_id_mul_two channels.length
    have h1 : (1 : ℕ) ≤ channels.length := by omega
    have hc2 := congrArg (fun m : ℕ => (m : ℝ)) hmul
    simp only [Nat.cast_mul, Nat.cast_ofNat, Nat.cast_sub h1, Nat.cast_one] at hc2
    linarith [hc2]
  · rw [if_neg hn]
    norm_num

/-- C10: for every parsed recording the local coherence lies in `[0, 1]` —
each pairwise Pearson correlation lies in `[-1, 1]` and the local coherence is
the mean of their absolute values over the `n(n-1)/2` pairs (0 for fewer than
two channels) — and the remote coherence satisfies
`0 ≤ remoteCoherence ≤ localCoherence`. -/
theorem calculateConnectivity_coherence_bounds (pd : ParsedEEGData) :
    (∀ x y : List ℝ, -1 ≤ calculateCorrelation x y ∧ calculateCorrelation x y ≤ 1) ∧
    0 ≤ (calculateConnectivity pd).localCoherence ∧
    (calculateConnectivity pd).localCoherence ≤ 1 ∧
    0 ≤ (calculateConnectivity pd).remoteCoherence ∧
    (calculateConnectivity pd).remoteCoherence ≤
      (calculateConnectivity pd).localCoherence := by
  obtain ⟨h0, h1⟩ := totalCoherence_bounds pd.channels
  refine ⟨calculateCorrelation_mem, ?_, ?_, ?_, ?_⟩
  · simpa only [calculateConnectivity] using h0
  · simpa only [calculateConnectivity] using h1
  · simp only [calculateConnectivity]
    exact le_max_left 0 _
  · simp only [calculateConnectivity]
    exact max_le h0 (sub_le_self _ (by norm_num))

end ConnectivityProofs

noncomputable section

/-- The even-indexed entries `signal.filter((_, i) => i % 2 === 0)` taken by
the fft recursion. -/
def evenEntries : List ℝ → List ℝ
  | [] => []
  | [x] => [x]
  | x :: _ :: rest => x :: evenEntries rest

/-- The odd-indexed entries `signal.filter((_, i) => i % 2 === 1)` taken by
the fft recursion. -/
def oddEntries : List ℝ → List ℝ
  | [] => []
  | [_] => []
  | _ :: y :: rest => y :: oddEntries rest

/-- Termination measure for the source's fft recursion: an odd-length call
first right-pads one zero (growing the list by one), then the even-length
call halves. -/
def fftMeasure (n : ℕ) : ℕ :=
  if n ≤ 1 then 0 else 2 * n + (if n % 2 = 1 then 3 else 0)

end

/-- `evenEntries` keeps half the entries, rounded up. -/
theorem evenEntries_length : ∀ l : List ℝ, (evenEntries l).length = (l.length + 1) / 2
  | [] => rfl
  | [_] => by simp [evenEntries]
  | _ :: _ :: rest => by
      simp only [evenEntries, List.length_cons, evenEntries_length rest]
      omega

/-- `oddEntries` keeps half the entries, rounded down. -/
theorem oddEntries_length : ∀ l : List ℝ, (oddEntries l).length = l.length / 2
  | [] => rfl
  | [_] => by simp [oddEntries]
  | _ :: _ :: rest => by
      simp only [oddEntries, List.length_cons, oddEntries_length rest]
      omega

noncomputable section

/-- advancedEEGAnalysis.ts `fft` (lines 56-81).  The source's "twiddle factor"
`T[k]` is `Math.exp((-2 * Math.PI * k) / N)` — the REAL exponential, not the
complex root of unity `e^(-2πik/N)` of a discrete Fourier transform — so this
function maps real input to real output and is not a Fourier transform.  A
length ≤ 1 input is returned unchanged; an odd length is right-padded with one
zero, transformed, and truncated back (`slice(0, N)`); an even length recurses
on the even- and odd-indexed subsequences and combines halves as
`out[k] = even[k] + T[k]·odd[k]`, `out[k + N/2] = even[k] - T[k]·odd[k]`. -/
def fft (signal : List ℝ) : List ℝ :=
  if signal.length ≤ 1 then signal
  else if signal.length % 2 ≠ 0 then (fft (signal ++ [0])).take signal.length
  else
    (List.range (signal.length / 2)).map (fun k =>
      (fft (evenEntries signal)).getD k 0 +
        Real.exp ((-2) * Real.pi * (k : ℝ) / (signal.length : ℝ)) *
          (fft (oddEntries signal)).getD k 0) ++
    (List.range (signal.length / 2)).map (fun k =>
      (fft (evenEntries signal)).getD k 0 -
        Real.exp ((-2) * Real.pi * (k : ℝ) / (signal.length : ℝ)) *
          (fft (oddEntries signal)).getD k 0)
termination_by fftMeasure signal.length
decreasing_by
  · simp only [fftMeasure, List.length_append, List.length_cons, List.length_nil]
    split_ifs <;> omega
  · simp only [fftMeasure, evenEntries_length]
    split_ifs <;> omega
  · simp only [fftMeasure, oddEntries_length]
    split_ifs <;> omega

/-- Modelled from the spec: the inverse discrete Fourier transform, the
round-trip partner that the spec pairs with the forward transform
("`FFT(FFT⁻¹(x)) ≈ x` within floating tolerance", "inverse-FFT of FFT recovers
the original signal"); the source implements only the forward transform. -/
def idftSpec (x : List ℂ) : List ℂ :=
  (List.range x.length).map (fun n : ℕ =>
    (∑ k in Finset.range x.length,
      x.getD k 0 * Complex.exp (2 * Real.pi * Complex.I * (k : ℂ) * (n : ℂ) /
        (x.length : ℂ))) / (x.length : ℂ))

end

section FFTProofs

/-- The fft returns a single sample unchanged. -/
theorem fft_single (x : ℝ) : fft [x] = [x] := by
  rw [fft]
  norm_num

/-- The length-2 fft: the twiddle at `k = 0` is `exp 0 = 1`, so the output is
the sum and the difference of the two samples. -/
theorem fft_pair (a b : ℝ) : fft [a, b] = [a + b, a - b] := by
  rw [fft]
  norm_num [evenEntries, oddEntries, fft_single, List.range_succ]

/-- The code's transform of `[0, 1, 0, 0]` is the REAL vector
`[1, T, -1, -T]` (with `T = exp(-π/2)`, a real scalar — a true FFT would give
the complex `[1, -i, -1, i]`). -/
theorem fft_four_exists : ∃ T : ℝ, fft [0, 1, 0, 0] = [1, T, -1, -T] := by
  have he : evenEntries [0, 1, 0, 0] = [0, 0] := by simp [evenEntries]
  have ho : oddEntries [0, 1, 0, 0] = [1, 0] := by simp [oddEntries]
  refine ⟨Real.exp ((-2) * Real.pi * (1 : ℝ) / (4 : ℝ)), ?_⟩
  rw [fft]
  rw [he, ho, fft_pair, fft_pair]
  norm_num [List.range_succ]

/-- `e^(iπ/2) = i`. -/
theorem exp_pi_div_two_mul_I : Complex.exp (((Real.pi : ℂ) / 2) * Complex.I) =
    Complex.I := by
  rw [Complex.exp_mul_I, Complex.cos_pi_div_two, Complex.sin_pi_div_two]
  ring

/-- `e^(3iπ/2) = -i`. -/
theorem exp_three_pi_div_two_mul_I :
    Complex.exp ((3 * (Real.pi : ℂ) / 2) * Complex.I) = -Complex.I := by
  have h : (3 * (Real.pi : ℂ) / 2) * Complex.I =
      (Real.pi : ℂ) * Complex.I + ((Real.pi : ℂ) / 2) * Complex.I := by ring
  rw [h, Complex.exp_add, Complex.exp_pi_mul_I, exp_pi_div_two_mul_I]
  ring

/-- Entry 1 of the spec's inverse DFT of `[1, u, -1, v]` has real part `1/2`
whenever `u` and `v` are real. -/
theorem idft_entry_one (u v : ℂ) (hu : u.im = 0) (hv : v.im = 0) :
    ((idftSpec [1, u, -1, v]).getD 1 0).re = 1/2 := by
  rw [idftSpec]
  rw [show ([1, u, -1, v] : List ℂ).length = 4 from rfl]
  rw [show List.range 4 = [0, 1, 2, 3] from by decide]
  simp only [List.map_cons, List.map_nil, List.getD_cons_succ, List.getD_cons_zero]
  rw [Finset.sum_range_succ, Finset.sum_range_succ, Finset.sum_range_succ,
    Finset.sum_range_succ, Finset.sum_range_zero]
  simp only [List.getD_cons_succ, List.getD_cons_zero, Nat.cast_zero, Nat.cast_one,
    Nat.cast_ofNat]
  rw [show (2 * (Real.pi : ℂ) * Complex.I * 0 * 1 / 4) = 0 from by ring,
    show (2 * (Real.pi : ℂ) * Complex.I * 1 * 1 / 4) =
      ((Real.pi : ℂ) / 2) * Complex.I from by ring,
    show (2 * (Real.pi : ℂ) * Complex.I * 2 * 1 / 4) = (Real.pi : ℂ) * Complex.I
      from by ring,
    show (2 * (Real.pi : ℂ) * Complex.I * 3 * 1 / 4) =
      (3 * (Real.pi : ℂ) / 2) * Complex.I from by ring,
    Complex.exp_zero, exp_pi_div_two_mul_I, Complex.exp_pi_mul_I,
    exp_three_pi_div_two_mul_I]
  rw [show ((0 : ℂ) + 1 * 1 + u * Complex.I + -1 * -1 + v * -Complex.I) =
      2 + (u - v) * Complex.I from by ring]
  rw [show (4 : ℂ) = ((4 : ℝ) : ℂ) from by norm_num, Complex.div_ofReal_re]
  simp only [Complex.add_re, Complex.mul_re, Complex.I_re, Complex.I_im,
    Complex.sub_im, Complex.sub_re, hu, hv]
  norm_num

/-- C2 is a code bug: the round-trip law fails because `fft` is not a Fourier
transform.  Its twiddle factor is the real `Math.exp(-2πk/N)` instead of the
complex root of unity `e^(-2πik/N)`, so on `[0, 1, 0, 0]` the code returns the
real vector `[1, e^(-π/2), -1, -e^(-π/2)]` where a true FFT returns
`[1, -i, -1, i]`; applying the spec's inverse transform to the code's output
yields entry 1 with real part `1/2`, while the original sample is `1` — a gap
of `1/2`, far beyond numerical tolerance. -/
theorem fft_round_trip_fails :
    ((idftSpec ((fft [0, 1, 0, 0]).map (fun r => (r : ℂ)))).getD 1 0).re = 1/2 ∧
    ((([0, 1, 0, 0] : List ℝ).map (fun r => (r : ℂ))).getD 1 0).re = 1 := by
  obtain ⟨T, hT⟩ := fft_four_exists
  constructor
  · rw [hT]
    have hmap : ([1, T, -1, -T] : List ℝ).map (fun r => (r : ℂ)) =
        [1, (T : ℂ), -1, (-T : ℝ)] := by
      norm_num
    rw [hmap]
    exact idft_entry_one (T : ℂ) ((-T : ℝ) : ℂ) (by simp) (by simp)
  · norm_num

end FFTProofs
